import Mathlib

/-!
# Verification of the Gemini EPUB Translator pipeline

A shallow embedding, in Lean 4, of the core logic of the Gemini EPUB
Translator (a TypeScript application): the chunking and retry logic of the
AI transformation client (`src/services/geminiService.ts` and its
`AiService` variant), the content classifier of the EPUB reader
(`src/services/epubService.ts`), and the translate/proofread workflow loop
of the orchestrator (`src/App.tsx`, `startProcessing`).

JavaScript strings are modelled as `List Char` (one element per UTF-16
unit; all inputs considered here are ASCII, where the two coincide).
JavaScript string falsiness (`!s` true exactly on the empty string) is
modelled by emptiness of the list; `undefined`-able fields are `Option`.
Numeric delays and progress values are modelled as `ℚ` (exact for the
magnitudes the program manipulates).
-/

namespace EpubTranslator

/-- Character list standing for a JavaScript string. -/
abbrev JStr := List Char

/-! ## Basic JavaScript string operations -/

/-- Whitespace characters recognised by the regex class `\s` and by
`String.prototype.trim` (restricted to the ASCII range used here). -/
def isWSChar (c : Char) : Bool :=
  c = ' ' || c = '\t' || c = '\n' || c = '\r' || c = '\x0b' || c = '\x0c'

/-- `String.prototype.trim`: strip leading and trailing whitespace. -/
def trimJS (s : JStr) : JStr :=
  ((s.dropWhile isWSChar).reverse.dropWhile isWSChar).reverse

/-- ASCII model of `String.prototype.toLowerCase`. -/
def lowerChar (c : Char) : Char :=
  if 'A' ≤ c ∧ c ≤ 'Z' then Char.ofNat (c.toNat + 32) else c

/-- Lower-case an entire string (ASCII model of `toLowerCase()`). -/
def toLowerJS (s : JStr) : JStr := s.map lowerChar

/-- `text.split(/\n\n/)`: split on non-overlapping occurrences of a double
newline, scanning left to right. -/
def splitNN : JStr → List JStr
  | [] => [[]]
  | [c] => [[c]]
  | c1 :: c2 :: rest =>
    if c1 = '\n' ∧ c2 = '\n' then [] :: splitNN rest
    else
      match splitNN (c2 :: rest) with
      | [] => [[c1]]
      | p :: ps => (c1 :: p) :: ps

/-- `paragraph.split('\n')`: split on single newlines. -/
def splitNL : JStr → List JStr
  | [] => [[]]
  | c :: rest =>
    if c = '\n' then [] :: splitNL rest
    else
      match splitNL rest with
      | [] => [[c]]
      | p :: ps => (c :: p) :: ps

/-- `Array.prototype.join(sep)` / chunk reassembly: interleave a separator
between the pieces. -/
def joinSep (sep : JStr) : List JStr → JStr
  | [] => []
  | [x] => x
  | x :: xs => x ++ sep ++ joinSep sep xs

/-! ## The transformation client's chunker

`GeminiService.splitTextIntoChunks` / `AiService.splitTextIntoChunks`
(`src/services/geminiService.ts` lines 55–115, `src/unnamed/part_001`
lines 55–108; the two variants are textually identical). -/

/-- The fixed chunk-size budget (`private CHUNK_SIZE = 6000`). -/
def CHUNK_SIZE : Nat := 6000

/-- The hard-cut loop for a single line longer than the budget:
`while (remaining.length > 0) { chunks.push(remaining.substring(0, CHUNK_SIZE));
remaining = remaining.substring(CHUNK_SIZE); }`. -/
def hardChop (remaining : JStr) : List JStr :=
  if _h : remaining.length = 0 then []
  else remaining.take CHUNK_SIZE :: hardChop (remaining.drop CHUNK_SIZE)
termination_by remaining.length
decreasing_by
  simp only [List.length_drop, CHUNK_SIZE]
  omega

/-- The inner `for (const line of lines)` accumulate/flush loop over the
lines of an over-budget paragraph, carrying the accumulated chunk list and
`currentLineChunk`. -/
def splitLines : List JStr → List JStr → JStr → List JStr
  | [], chunks, cur => if cur = [] then chunks else chunks ++ [cur]
  | line :: rest, chunks, cur =>
    if cur.length + line.length + 1 > CHUNK_SIZE then
      let chunks1 := if cur = [] then chunks else chunks ++ [cur]
      if line.length > CHUNK_SIZE then
        splitLines rest (chunks1 ++ hardChop line) []
      else
        splitLines rest chunks1 line
    else
      splitLines rest chunks (if cur = [] then line else cur ++ '\n' :: line)

/-- The outer `for (const paragraph of paragraphs)` accumulate/flush loop,
carrying the accumulated chunk list and `currentChunk`. -/
def splitParas : List JStr → List JStr → JStr → List JStr
  | [], chunks, cur => if cur = [] then chunks else chunks ++ [cur]
  | p :: rest, chunks, cur =>
    if cur.length + p.length + 2 > CHUNK_SIZE then
      let chunks1 := if cur = [] then chunks else chunks ++ [cur]
      if p.length > CHUNK_SIZE then
        splitParas rest (splitLines (splitNL p) chunks1 []) []
      else
        splitParas rest chunks1 p
    else
      splitParas rest chunks (if cur = [] then p else cur ++ '\n' :: '\n' :: p)

/-- `splitTextIntoChunks(text)`: return `[text]` when the text is falsy or
within budget, otherwise run the paragraph accumulate/flush loop. -/
def splitTextIntoChunks (text : JStr) : List JStr :=
  if text = [] ∨ text.length ≤ CHUNK_SIZE then [text]
  else splitParas (splitNN text) [] []

/-- The pure skeleton of `translateContent`/`proofreadContent`: split into
chunks, transform each chunk with `f` (the per-chunk external call),
reassemble with `translatedChunks.join('\n\n')`. -/
def transformContentPure (f : JStr → JStr) (content : JStr) : JStr :=
  joinSep ['\n', '\n'] ((splitTextIntoChunks content).map f)

/-! ## The retry helper

`AiService.retry` (`src/unnamed/part_001` lines 20–50) and
`GeminiService.retry` (`src/services/geminiService.ts` lines 19–49).
The effectful `operation` is modelled as a function from the call index
(0-based, counting invocations made so far) to an `Except` outcome; the
model returns the final outcome together with the number of invocations of
the operation and the list of backoff delays waited, in order.
`errString.includes(p)` is modelled by list-infix containment on the
error's string representation. -/

/-- `errString.includes('429') || errString.includes('RESOURCE_EXHAUSTED')`. -/
def isRateLimitErr (e : JStr) : Bool :=
  decide ("429".data <:+: e) || decide ("RESOURCE_EXHAUSTED".data <:+: e)

/-- `errString.includes('401') || errString.includes('403') ||
errString.includes('400')` (present only in the `AiService` variant). -/
def isFatalErr (e : JStr) : Bool :=
  decide ("401".data <:+: e) || decide ("403".data <:+: e)
    || decide ("400".data <:+: e)

/-- Observable trace of one `retry(operation, retries, delay)` evaluation:
final outcome, number of `operation()` invocations, backoff delays waited. -/
structure RetryTrace (α : Type) where
  result : Except JStr α
  calls : Nat
  delays : List ℚ
deriving Repr

/-- `AiService.retry` (`src/unnamed/part_001` lines 20–50): on failure,
rethrow when the budget is exhausted; rethrow at once on a fatal
(401/403/400) error; otherwise wait `max(delay*1.5, 15000)` for a
rate-limit error or `delay*2` for any other error, and recurse with the
budget decremented. `k` is the index of the current invocation. -/
def retryAi (op : Nat → Except JStr α) : Nat → Nat → ℚ → RetryTrace α
  | k, retries, delay =>
    match op k with
    | .ok a => ⟨.ok a, 1, []⟩
    | .error e =>
      match retries with
      | 0 => ⟨.error e, 1, []⟩
      | r + 1 =>
        if isFatalErr e then ⟨.error e, 1, []⟩
        else
          let nextDelay : ℚ :=
            if isRateLimitErr e then max (delay * (3 / 2)) 15000 else delay * 2
          let t := retryAi op (k + 1) r nextDelay
          ⟨t.result, t.calls + 1, nextDelay :: t.delays⟩

/-- `GeminiService.retry` (`src/services/geminiService.ts` lines 19–49):
same recursion but with no fatal-error class — every error within budget
is retried after a backoff. -/
def retryGemini (op : Nat → Except JStr α) : Nat → Nat → ℚ → RetryTrace α
  | k, retries, delay =>
    match op k with
    | .ok a => ⟨.ok a, 1, []⟩
    | .error e =>
      match retries with
      | 0 => ⟨.error e, 1, []⟩
      | r + 1 =>
        let nextDelay : ℚ :=
          if isRateLimitErr e then max (delay * (3 / 2)) 15000 else delay * 2
        let t := retryGemini op (k + 1) r nextDelay
        ⟨t.result, t.calls + 1, nextDelay :: t.delays⟩

/-- `AiService.retry` with its default arguments (`retries = 3`,
`delay = 2000`). -/
def retryAiDefault (op : Nat → Except JStr α) : RetryTrace α :=
  retryAi op 0 3 2000

/-- `GeminiService.retry` with its default arguments (`retries = 5`,
`delay = 2000`). -/
def retryGeminiDefault (op : Nat → Except JStr α) : RetryTrace α :=
  retryGemini op 0 5 2000

/-! ## The content classifier

The classification logic inlined in `EpubService.parseEpub`
(`src/services/epubService.ts` lines 299–309): two case-insensitive regex
tests over the trimmed lower-cased title and the lower-cased manifest
href. Each regex alternation is expanded into its (finitely many) literal
word forms; `\s?` becomes an optional single whitespace character. -/

/-- Strip a literal prefix, returning the remainder on success. -/
def stripLit (p l : JStr) : Option JStr :=
  if p.isPrefixOf l then some (l.drop p.length) else none

/-- The remainders reachable from `l` by consuming `\s?` (zero or one
whitespace character). -/
def optWS (l : JStr) : List JStr :=
  match l with
  | c :: rest => if isWSChar c then [l, rest] else [l]
  | [] => [l]

/-- `/^title\s?page/` on an (already lower-cased) title. -/
def matchTitlePage (t : JStr) : Bool :=
  match stripLit "title".data t with
  | none => false
  | some r => (optWS r).any fun r1 => "page".data.isPrefixOf r1

/-- `/^table\s?of\s?contents/` on an (already lower-cased) title. -/
def matchTableOfContents (t : JStr) : Bool :=
  match stripLit "table".data t with
  | none => false
  | some r =>
    (optWS r).any fun r1 =>
      match stripLit "of".data r1 with
      | none => false
      | some r2 => (optWS r2).any fun r3 => "contents".data.isPrefixOf r3

/-- `/^works\s?cited/` on an (already lower-cased) title. -/
def matchWorksCited (t : JStr) : Bool :=
  match stripLit "works".data t with
  | none => false
  | some r => (optWS r).any fun r1 => "cited".data.isPrefixOf r1

/-- `/^(copyright|colophon|imprint|legal|cover|title\s?page|table\s?of\s?contents|^toc$|dedication)/i`
applied to the trimmed, lower-cased title.  The embedded `^toc$`
alternative matches only the exact string `toc`. -/
def isSkippableTitle (t : JStr) : Bool :=
  "copyright".data.isPrefixOf t || "colophon".data.isPrefixOf t
    || "imprint".data.isPrefixOf t || "legal".data.isPrefixOf t
    || "cover".data.isPrefixOf t || matchTitlePage t
    || matchTableOfContents t || t = "toc".data
    || "dedication".data.isPrefixOf t

/-- `/(copyright|cover|title[\-_]?page|toc|contents)\.(xhtml|html|xml)$/i`
applied to the lower-cased href: the href must end in one of the listed
words followed by a dot and one of the listed extensions. -/
def isSkippableHref (h : JStr) : Bool :=
  let words := ["copyright".data, "cover".data, "titlepage".data,
    "title-page".data, "title_page".data, "toc".data, "contents".data]
  let exts := ["xhtml".data, "html".data, "xml".data]
  words.any fun w => exts.any fun e => (w ++ '.' :: e).isSuffixOf h

/-- `/^(references|bibliography|works\s?cited|sources|acknowledg?ments|credits|notes|endnotes)/i`
applied to the trimmed, lower-cased title. -/
def isReferenceTitle (t : JStr) : Bool :=
  "references".data.isPrefixOf t || "bibliography".data.isPrefixOf t
    || matchWorksCited t || "sources".data.isPrefixOf t
    || "acknowledgments".data.isPrefixOf t || "acknowledments".data.isPrefixOf t
    || "credits".data.isPrefixOf t || "notes".data.isPrefixOf t
    || "endnotes".data.isPrefixOf t

/-- `/(references|bibliography|notes)\.(xhtml|html|xml)$/i` applied to the
lower-cased href. -/
def isReferenceHref (h : JStr) : Bool :=
  let words := ["references".data, "bibliography".data, "notes".data]
  let exts := ["xhtml".data, "html".data, "xml".data]
  words.any fun w => exts.any fun e => (w ++ '.' :: e).isSuffixOf h

/-- The classifier of `parseEpub`: from the unit's display title and
source file name (manifest href) compute the pair
`(isSkippable, isReference)`, via
`lowerTitle = title.trim().toLowerCase()` and
`lowerHref = href.toLowerCase()`. -/
def classify (title href : JStr) : Bool × Bool :=
  let lowerTitle := toLowerJS (trimJS title)
  let lowerHref := toLowerJS href
  (isSkippableTitle lowerTitle || isSkippableHref lowerHref,
   isReferenceTitle lowerTitle || isReferenceHref lowerHref)

/-! ## The workflow orchestrator

The data model of `src/types.ts` and the translate/proofread loop of
`startProcessing` in `src/App.tsx` (lines 148–247; the two `App.tsx`
variants are identical in this region).  The two external-service
operations are abstracted as pure functions `T` (translate) and `P`
(proofread) from unit text to transformed text; every observable action of
the loop (external call, `setStatus`, `setProgress`) is recorded as an
event, in program order. -/

/-- `Chapter` (`src/types.ts` lines 2–12).  `markdown` is kept as a plain
list (the parser always assigns it; the empty list models both `''` and an
absent value, which are indistinguishable to the orchestrator's truthiness
checks); the two output fields are `Option`s, `none` modelling
`undefined`. -/
structure Chapter where
  id : JStr
  fileName : JStr
  title : JStr
  content : JStr
  markdown : JStr
  translatedMarkdown : Option JStr
  proofreadMarkdown : Option JStr
  isSkippable : Bool
  isReference : Bool
deriving DecidableEq, Repr

/-- `AppConfig` (`src/types.ts` lines 30–37). -/
structure AppConfig where
  targetLanguage : JStr
  systemInstruction : JStr
  proofreadInstruction : JStr
  enableProofreading : Bool
  useRecommendedPrompts : Bool
  smartSkip : Bool
deriving DecidableEq, Repr

/-- `AppStatus` (`src/types.ts` lines 20–28). -/
inductive AppStatus where
  | IDLE | PARSING | TRANSLATING | PROOFREADING | PACKAGING | COMPLETED | ERROR
deriving DecidableEq, Repr

/-- Which transformation pass an external-service call belongs to. -/
inductive PassKind where
  | translate | proofread
deriving DecidableEq, Repr

/-- An observable action of the orchestrator, in program order: an
external-service call, a `setStatus`, or a published `setProgress` value. -/
inductive Event where
  | extCall (k : PassKind)
  | setStatus (s : AppStatus)
  | setProgress (p : ℚ)
deriving DecidableEq, Repr

/-- JavaScript truthiness of an optional string field (`undefined` and
`''` are falsy). -/
def truthy : Option JStr → Bool
  | none => false
  | some s => !s.isEmpty

/-- `!chapter.markdown || chapter.markdown.trim().length < 10`: the
empty/short-chapter skip test. -/
def shortMarkdown (md : JStr) : Bool :=
  md.isEmpty || (trimJS md).length < 10

/-- `totalSteps = chapters.length * (config.enableProofreading ? 2 : 1)`. -/
def totalSteps (cfg : AppConfig) (n : Nat) : Nat :=
  n * (if cfg.enableProofreading then 2 else 1)

/-- The `chapters.reduce` step count: a smart-skipped skippable unit counts
as fully done; otherwise 1 per truthy `translatedMarkdown` plus 1 per
truthy `proofreadMarkdown`. -/
def stepsDone (cfg : AppConfig) (chs : List Chapter) : Nat :=
  chs.foldl (fun acc c =>
    if cfg.smartSkip && c.isSkippable then
      acc + (if cfg.enableProofreading then 2 else 1)
    else
      acc + (if truthy c.translatedMarkdown then 1 else 0)
          + (if truthy c.proofreadMarkdown then 1 else 0)) 0

/-- `(stepsDone / currentTotalSteps) * 100`, over the live chapter list
(whose length never changes during a run). -/
def progressOf (cfg : AppConfig) (chs : List Chapter) : ℚ :=
  (stepsDone cfg chs : ℚ) / (totalSteps cfg chs.length : ℚ) * 100

/-- Smart-skip case 2 of the loop body: a reference unit with no
translated text yet gets both outputs set to its original text
(`src/App.tsx` lines 166–172). -/
def applyReferenceKeep (cfg : AppConfig) (c : Chapter) : Chapter :=
  if cfg.smartSkip && c.isReference && !truthy c.translatedMarkdown then
    { c with translatedMarkdown := some c.markdown,
             proofreadMarkdown := some c.markdown }
  else c

/-- The translation pass of the loop body (`src/App.tsx` lines 176–188):
skip when `translatedMarkdown` is truthy, otherwise set status, call the
service, store the result. -/
def applyTranslate (T : JStr → JStr) (c : Chapter) : List Event × Chapter :=
  if truthy c.translatedMarkdown then ([], c)
  else ([Event.setStatus .TRANSLATING, Event.extCall .translate],
        { c with translatedMarkdown := some (T c.markdown) })

/-- The proofreading pass of the loop body (`src/App.tsx` lines 204–222):
only when proofreading is enabled and `proofreadMarkdown` is not truthy;
it calls the service on `translatedMarkdown!` and publishes a second
progress value (computed over the live array). -/
def applyProofread (cfg : AppConfig) (P : JStr → JStr)
    (done : List Chapter) (c : Chapter) (rest : List Chapter) :
    List Event × Chapter :=
  if cfg.enableProofreading then
    if truthy c.proofreadMarkdown then ([], c)
    else
      let c3 := { c with
        proofreadMarkdown := some (P (c.translatedMarkdown.getD [])) }
      ([Event.setStatus .PROOFREADING, Event.extCall .proofread,
        Event.setProgress (progressOf cfg (done ++ c3 :: rest))], c3)
  else ([], c)

/-- One iteration of the `for (let i = 0; ...)` loop body of
`startProcessing` (`src/App.tsx` lines 148–224) for the chapter `c`, with
`done` the already-processed prefix and `rest` the unprocessed suffix of
the live chapter array (needed because progress is recomputed over the
whole array).  Returns the events emitted and the updated chapter. -/
def processChapter (cfg : AppConfig) (T P : JStr → JStr)
    (done : List Chapter) (c : Chapter) (rest : List Chapter) :
    List Event × Chapter :=
  if shortMarkdown c.markdown then ([], c)
  else if cfg.smartSkip && c.isSkippable then ([], c)
  else
    let c1 := applyReferenceKeep cfg c
    let step2 := applyTranslate T c1
    let c2 := step2.2
    -- progress update after the translation phase
    let pub1 := Event.setProgress (progressOf cfg (done ++ c2 :: rest))
    let step3 := applyProofread cfg P done c2 rest
    (step2.1 ++ pub1 :: step3.1, step3.2)

/-- The whole chapter loop: process `rest` in order, accumulating the
processed prefix in `done`.  Returns the events emitted and the processed
versions of `rest` (the final live array is `done ++` that list). -/
def runLoop (cfg : AppConfig) (T P : JStr → JStr) :
    List Chapter → List Chapter → List Event × List Chapter
  | _, [] => ([], [])
  | done, c :: rest =>
    let step := processChapter cfg T P done c rest
    let next := runLoop cfg T P (done ++ [step.2]) rest
    (step.1 ++ next.1, step.2 :: next.2)

/-- `chaptersToPack` (`src/App.tsx` lines 229–231): all chapters when
smart-skip is disabled, otherwise the non-skippable ones. -/
def chaptersToPack (cfg : AppConfig) (chs : List Chapter) : List Chapter :=
  if cfg.smartSkip then chs.filter (fun c => !c.isSkippable) else chs

/-- The post-parse portion of `startProcessing`: run the loop from an empty
processed prefix, then `setStatus(PACKAGING)`, package, `setProgress(100)`,
`setStatus(COMPLETED)`.  Returns the event trace, the final chapter list,
and the list handed to the Writer. -/
def startProcessingModel (cfg : AppConfig) (T P : JStr → JStr)
    (chapters : List Chapter) : List Event × List Chapter × List Chapter :=
  let loop := runLoop cfg T P [] chapters
  (loop.1 ++ [Event.setStatus .PACKAGING, Event.setProgress 100,
              Event.setStatus .COMPLETED],
   loop.2, chaptersToPack cfg loop.2)

/-- Number of external-service calls in an event trace. -/
def numExtCalls (evs : List Event) : Nat :=
  (evs.filter fun e => match e with | .extCall _ => true | _ => false).length

/-- The sequence of published progress values of an event trace. -/
def publishedProgress (evs : List Event) : List ℚ :=
  evs.filterMap fun e => match e with | .setProgress p => some p | _ => none

/-! ## The writer's per-unit document entries

`EpubService.generateEpub` (`src/services/epubService.ts` lines 403–456):
for each packaged chapter, in order, one document entry `page_{i+1}.xhtml`
is added to the archive, rendered from the best available text.  The
markdown-to-HTML rendering and document wrapping are abstracted as a
function `render`. -/

/-- `ch.proofreadMarkdown || ch.translatedMarkdown || ch.markdown || ""`:
best-available text by JavaScript truthiness. -/
def contentToUse (c : Chapter) : JStr :=
  if truthy c.proofreadMarkdown then c.proofreadMarkdown.getD []
  else if truthy c.translatedMarkdown then c.translatedMarkdown.getD []
  else c.markdown

/-- `page_${i + 1}.xhtml`. -/
def pageFileName (i : Nat) : JStr :=
  "page_".data ++ (Nat.repr i).data ++ ".xhtml".data

/-- The per-chapter document entries of the generated archive, as
(file name, rendered content) pairs: exactly one per chapter handed to the
writer, under positional names. -/
def pageEntries (render : JStr → JStr) (chs : List Chapter) :
    List (JStr × JStr) :=
  chs.enum.map fun p => (pageFileName (p.1 + 1), render (contentToUse p.2))

/-! ## Chunker lemmas -/

/-- Every piece produced by the hard-cut loop fits the budget. -/
theorem hardChop_bound (l : JStr) : ∀ x ∈ hardChop l, x.length ≤ CHUNK_SIZE := by
  induction l using hardChop.induct with
  | case1 l h => rw [hardChop]; simp [h]
  | case2 l h ih =>
    rw [hardChop]
    simp only [h, dite_false, List.mem_cons]
    rintro x (rfl | hx)
    · simp [List.length_take]
    · exact ih x hx

/-- Budget bound for the flushed chunk list. -/
theorem flush_bound {chunks : List JStr} {cur : JStr}
    (hc : ∀ x ∈ chunks, x.length ≤ CHUNK_SIZE) (hcur : cur.length ≤ CHUNK_SIZE) :
    ∀ x ∈ (if cur = [] then chunks else chunks ++ [cur]), x.length ≤ CHUNK_SIZE := by
  split
  · exact hc
  · intro x hx
    rcases List.mem_append.mp hx with h | h
    · exact hc x h
    · simp only [List.mem_singleton] at h; exact h ▸ hcur

/-- Every chunk produced by the line-level accumulate/flush loop fits the
budget, given that the incoming accumulated chunks and current chunk do. -/
theorem splitLines_bound :
    ∀ (lines chunks : List JStr) (cur : JStr),
      (∀ x ∈ chunks, x.length ≤ CHUNK_SIZE) → cur.length ≤ CHUNK_SIZE →
      ∀ x ∈ splitLines lines chunks cur, x.length ≤ CHUNK_SIZE := by
  intro lines
  induction lines with
  | nil =>
    intro chunks cur hc hcur x hx
    rw [splitLines] at hx
    exact flush_bound hc hcur x hx
  | cons line rest ih =>
    intro chunks cur hc hcur x hx
    rw [splitLines] at hx
    by_cases h1 : cur.length + line.length + 1 > CHUNK_SIZE
    · rw [if_pos h1] at hx
      by_cases h2 : line.length > CHUNK_SIZE
      · rw [if_pos h2] at hx
        refine ih _ [] ?_ (by simp [CHUNK_SIZE]) x hx
        intro y hy
        rcases List.mem_append.mp hy with h | h
        · exact flush_bound hc hcur y h
        · exact hardChop_bound line y h
      · rw [if_neg h2] at hx
        exact ih _ line (flush_bound hc hcur) (by omega) x hx
    · rw [if_neg h1] at hx
      refine ih _ _ hc ?_ x hx
      by_cases hce : cur = []
      · simp only [hce, if_pos]
        simp only [hce, List.length_nil] at h1
        omega
      · rw [if_neg hce]
        simp only [List.length_append, List.length_cons]
        omega

/-- Every chunk produced by the paragraph-level accumulate/flush loop fits
the budget, given that the incoming accumulated chunks and current chunk
do. -/
theorem splitParas_bound :
    ∀ (paras chunks : List JStr) (cur : JStr),
      (∀ x ∈ chunks, x.length ≤ CHUNK_SIZE) → cur.length ≤ CHUNK_SIZE →
      ∀ x ∈ splitParas paras chunks cur, x.length ≤ CHUNK_SIZE := by
  intro paras
  induction paras with
  | nil =>
    intro chunks cur hc hcur x hx
    rw [splitParas] at hx
    exact flush_bound hc hcur x hx
  | cons p rest ih =>
    intro chunks cur hc hcur x hx
    rw [splitParas] at hx
    by_cases h1 : cur.length + p.length + 2 > CHUNK_SIZE
    · rw [if_pos h1] at hx
      by_cases h2 : p.length > CHUNK_SIZE
      · rw [if_pos h2] at hx
        refine ih _ [] ?_ (by simp [CHUNK_SIZE]) x hx
        exact splitLines_bound _ _ [] (flush_bound hc hcur) (by simp [CHUNK_SIZE])
      · rw [if_neg h2] at hx
        exact ih _ p (flush_bound hc hcur) (by omega) x hx
    · rw [if_neg h1] at hx
      refine ih _ _ hc ?_ x hx
      by_cases hce : cur = []
      · simp only [hce, if_pos]
        simp only [hce, List.length_nil] at h1
        omega
      · rw [if_neg hce]
        simp only [List.length_append, List.length_cons]
        omega

/-- C2: for every text `t` with `len(t) ≤ CHUNK_SIZE` (the fixed budget,
6000), `splitTextIntoChunks` returns exactly one chunk, and that chunk is
`t` itself. -/
theorem chunking_single_chunk (t : JStr) (h : t.length ≤ CHUNK_SIZE) :
    splitTextIntoChunks t = [t] := by
  unfold splitTextIntoChunks
  exact if_pos (Or.inr h)

/-- Witness for C2 at the concrete text `"hello"`. -/
theorem chunking_single_chunk_witness :
    "hello".data.length ≤ CHUNK_SIZE
      ∧ splitTextIntoChunks "hello".data = ["hello".data] :=
  ⟨by decide, chunking_single_chunk "hello".data (by decide)⟩

/-- C3: every chunk returned by `splitTextIntoChunks` has length at most
`CHUNK_SIZE` (6000), for every input text: paragraphs are accumulated
until the budget would be exceeded, an over-budget paragraph is split on
line boundaries by the same rule, and an over-budget single line is
hard-cut at `CHUNK_SIZE`-width boundaries. -/
theorem chunking_length_bound (t : JStr) (c : JStr)
    (hc : c ∈ splitTextIntoChunks t) : c.length ≤ CHUNK_SIZE := by
  unfold splitTextIntoChunks at hc
  split at hc
  · rename_i h
    simp only [List.mem_singleton] at hc
    subst hc
    rcases h with h | h
    · simp [h]
    · exact h
  · exact splitParas_bound _ [] []
      (by intro x hx; exact absurd hx (List.not_mem_nil x))
      (by simp [CHUNK_SIZE]) c hc

/-- Witness for C3 at the concrete text `"hi"` and its only chunk. -/
theorem chunking_length_bound_witness :
    "hi".data ∈ splitTextIntoChunks "hi".data
      ∧ "hi".data.length ≤ CHUNK_SIZE :=
  ⟨by decide, chunking_length_bound "hi".data "hi".data (by decide)⟩

/-! ## Chunker content preservation (round trip) -/

/-- Erase every newline character.  This is the whitespace normalization
under which the chunk/reassemble round trip is compared: chunk boundaries
only ever create, move or delete newline characters (the paragraph-join
whitespace), never any other character. -/
def stripNewlines (s : JStr) : JStr := s.filter (fun c => !(c = '\n'))

/-- Newline-erased concatenation of a list of pieces. -/
def stripJoin (l : List JStr) : JStr := (l.map stripNewlines).flatten

/-- `split(/\n\n/)` never returns an empty piece list. -/
theorem splitNN_ne_nil (l : JStr) : splitNN l ≠ [] := by
  induction l using splitNN.induct <;> simp [splitNN, *]

/-- `split('\n')` never returns an empty piece list. -/
theorem splitNL_ne_nil (l : JStr) : splitNL l ≠ [] := by
  induction l using splitNL.induct <;> simp [splitNL, *]

/-- Unfolding of `joinSep` on a singleton list. -/
theorem joinSep_single (sep x : JStr) : joinSep sep [x] = x := rfl

/-- Unfolding of `joinSep` on a list with at least two pieces. -/
theorem joinSep_cons2 (sep x y : JStr) (ys : List JStr) :
    joinSep sep (x :: y :: ys) = x ++ sep ++ joinSep sep (y :: ys) := rfl

/-- Joining the pieces of `split(/\n\n/)` with a double newline restores
the original text. -/
theorem joinSep_splitNN (l : JStr) : joinSep ['\n', '\n'] (splitNN l) = l := by
  induction l using splitNN.induct with
  | case1 => rfl
  | case2 => rfl
  | case3 c1 c2 rest h ih =>
    obtain ⟨rfl, rfl⟩ := h
    rw [splitNN, if_pos ⟨rfl, rfl⟩]
    rcases hs : splitNN rest with _ | ⟨p, ps⟩
    · exact absurd hs (splitNN_ne_nil rest)
    · rw [hs] at ih
      rw [joinSep_cons2]
      simpa using ih
  | case4 c1 c2 rest h hm =>
    exact absurd hm (splitNN_ne_nil (c2 :: rest))
  | case5 c1 c2 rest h p ps hm ih =>
    rw [splitNN, if_neg h, hm]
    rw [hm] at ih
    rcases ps with _ | ⟨q, qs⟩
    · rw [joinSep_single] at ih ⊢
      rw [ih]
    · rw [joinSep_cons2] at ih
      rw [joinSep_cons2]
      rw [show (c1 :: p) ++ ['\n', '\n'] ++ joinSep ['\n', '\n'] (q :: qs)
            = c1 :: (p ++ ['\n', '\n'] ++ joinSep ['\n', '\n'] (q :: qs)) by simp]
      rw [ih]

/-- Joining the pieces of `split('\n')` with a newline restores the
original text. -/
theorem joinSep_splitNL (l : JStr) : joinSep ['\n'] (splitNL l) = l := by
  induction l using splitNL.induct with
  | case1 => rfl
  | case2 rest ih =>
    rw [splitNL, if_pos rfl]
    rcases hs : splitNL rest with _ | ⟨p, ps⟩
    · exact absurd hs (splitNL_ne_nil rest)
    · rw [hs] at ih
      rw [joinSep_cons2]
      simpa using ih
  | case3 c rest h hm =>
    exact absurd hm (splitNL_ne_nil rest)
  | case4 c rest h p ps hm ih =>
    rw [splitNL, if_neg h, hm]
    rw [hm] at ih
    rcases ps with _ | ⟨q, qs⟩
    · rw [joinSep_single] at ih ⊢
      rw [ih]
    · rw [joinSep_cons2] at ih
      rw [joinSep_cons2]
      rw [show (c :: p) ++ ['\n'] ++ joinSep ['\n'] (q :: qs)
            = c :: (p ++ ['\n'] ++ joinSep ['\n'] (q :: qs)) by simp]
      rw [ih]

/-- Erasing newlines commutes with joining on an all-newline separator. -/
theorem stripNewlines_joinSep (sep : JStr) (hsep : stripNewlines sep = [])
    (l : List JStr) : stripNewlines (joinSep sep l) = stripJoin l := by
  induction l with
  | nil => rfl
  | cons x xs ih =>
    rcases xs with _ | ⟨y, ys⟩
    · simp [joinSep_single, stripJoin]
    · rw [joinSep_cons2]
      simp only [stripJoin, List.map_cons, List.flatten_cons] at ih ⊢
      simp [stripNewlines, List.filter_append] at ih ⊢
      rw [show List.filter (fun c => !(c = '\n')) sep = [] from hsep]
      simp [ih]

/-- The newline-erased content of a text equals the newline-erased
concatenation of its `split(/\n\n/)` pieces. -/
theorem stripJoin_splitNN (l : JStr) :
    stripJoin (splitNN l) = stripNewlines l := by
  rw [← stripNewlines_joinSep ['\n', '\n'] rfl, joinSep_splitNN]

/-- The newline-erased content of a text equals the newline-erased
concatenation of its `split('\n')` pieces. -/
theorem stripJoin_splitNL (l : JStr) :
    stripJoin (splitNL l) = stripNewlines l := by
  rw [← stripNewlines_joinSep ['\n'] rfl, joinSep_splitNL]

/-- `stripJoin` distributes over list append. -/
theorem stripJoin_append (a b : List JStr) :
    stripJoin (a ++ b) = stripJoin a ++ stripJoin b := by
  simp [stripJoin]

/-- `stripJoin` on a cons. -/
theorem stripJoin_cons (x : JStr) (l : List JStr) :
    stripJoin (x :: l) = stripNewlines x ++ stripJoin l := by
  simp [stripJoin, stripNewlines]

/-- Newline-erased content of the flush of a current chunk onto the
accumulated list. -/
theorem stripJoin_flush (chunks : List JStr) (cur : JStr) :
    stripJoin (if cur = [] then chunks else chunks ++ [cur])
      = stripJoin chunks ++ stripNewlines cur := by
  split
  · rename_i h; subst h; simp [stripNewlines]
  · rw [stripJoin_append]
    simp [stripJoin, stripNewlines]

/-- The hard-cut pieces concatenate back to the original line. -/
theorem hardChop_flatten (l : JStr) : (hardChop l).flatten = l := by
  induction l using hardChop.induct with
  | case1 l h => rw [hardChop]; simp [h, List.length_eq_zero.mp h]
  | case2 l h ih =>
    rw [hardChop]
    simp only [h, dite_false, List.flatten_cons, ih]
    exact List.take_append_drop _ _

/-- Erasing newlines piecewise and flattening equals flattening and then
erasing newlines. -/
theorem stripNewlines_flatten (l : List JStr) :
    (l.map stripNewlines).flatten = stripNewlines l.flatten := by
  induction l with
  | nil => rfl
  | cons x xs ih =>
    simp only [List.map_cons, List.flatten_cons, stripNewlines,
      List.filter_append] at ih ⊢
    rw [ih]

/-- Newline-erased content of the hard-cut pieces. -/
theorem stripJoin_hardChop (l : JStr) :
    stripJoin (hardChop l) = stripNewlines l := by
  unfold stripJoin
  rw [stripNewlines_flatten, hardChop_flatten]

/-- The line-level loop preserves newline-erased content: its output is
the accumulated chunks, the current chunk, and the remaining lines. -/
theorem splitLines_content :
    ∀ (lines chunks : List JStr) (cur : JStr),
      stripJoin (splitLines lines chunks cur)
        = stripJoin chunks ++ stripNewlines cur ++ stripJoin lines := by
  intro lines
  induction lines with
  | nil =>
    intro chunks cur
    rw [splitLines, stripJoin_flush]
    simp [stripJoin]
  | cons line rest ih =>
    intro chunks cur
    rw [splitLines]
    by_cases h1 : cur.length + line.length + 1 > CHUNK_SIZE
    · rw [if_pos h1]
      by_cases h2 : line.length > CHUNK_SIZE
      · rw [if_pos h2, ih, stripJoin_append, stripJoin_flush,
            stripJoin_hardChop, stripJoin_cons]
        simp [stripNewlines, List.append_assoc]
      · rw [if_neg h2, ih, stripJoin_flush, stripJoin_cons]
        simp [List.append_assoc]
    · rw [if_neg h1, ih, stripJoin_cons]
      have hsplit : stripNewlines (if cur = [] then line else cur ++ '\n' :: line)
          = stripNewlines cur ++ stripNewlines line := by
        split
        · rename_i h; subst h; simp [stripNewlines]
        · simp [stripNewlines, List.filter_append]
      rw [hsplit]
      simp [List.append_assoc]

/-- The paragraph-level loop preserves newline-erased content. -/
theorem splitParas_content :
    ∀ (paras chunks : List JStr) (cur : JStr),
      stripJoin (splitParas paras chunks cur)
        = stripJoin chunks ++ stripNewlines cur ++ stripJoin paras := by
  intro paras
  induction paras with
  | nil =>
    intro chunks cur
    rw [splitParas, stripJoin_flush]
    simp [stripJoin]
  | cons p rest ih =>
    intro chunks cur
    rw [splitParas]
    by_cases h1 : cur.length + p.length + 2 > CHUNK_SIZE
    · rw [if_pos h1]
      by_cases h2 : p.length > CHUNK_SIZE
      · rw [if_pos h2, ih, splitLines_content, stripJoin_flush,
            stripJoin_splitNL, stripJoin_cons]
        simp [stripNewlines, List.append_assoc]
      · rw [if_neg h2, ih, stripJoin_flush, stripJoin_cons]
        simp [List.append_assoc]
    · rw [if_neg h1, ih, stripJoin_cons]
      have hsplit : stripNewlines (if cur = [] then p else cur ++ '\n' :: '\n' :: p)
          = stripNewlines cur ++ stripNewlines p := by
        split
        · rename_i h; subst h; simp [stripNewlines]
        · simp [stripNewlines, List.filter_append]
      rw [hsplit]
      simp [List.append_assoc]

/-- C9: for every text `t`, splitting into chunks and reassembling with
the blank-line separator — each chunk echoed unchanged by the identity
stub transformation — reproduces `t` up to paragraph-join whitespace
normalization (here: up to the placement of newline characters, the only
characters the chunk boundaries create or consume). -/
theorem chunk_reassembly_roundtrip (t : JStr) :
    stripNewlines (transformContentPure id t) = stripNewlines t := by
  unfold transformContentPure
  rw [List.map_id]
  unfold splitTextIntoChunks
  split
  · rw [joinSep_single]
  · rw [stripNewlines_joinSep ['\n', '\n'] rfl, splitParas_content,
        stripJoin_splitNN]
    rfl

/-! ## Retry-policy lemmas -/

/-- In the `AiService` variant, a fatal error is rethrown at once: one
operation call, no backoff wait. -/
theorem retryAi_fatal {α : Type} (op : Nat → Except JStr α) (k n : Nat)
    (d : ℚ) (e : JStr) (hop : op k = .error e) (hf : isFatalErr e = true) :
    retryAi op k n d = ⟨.error e, 1, []⟩ := by
  cases n with
  | zero => rw [retryAi, hop]
  | succ m => rw [retryAi, hop]; simp [hf]

/-- In the `AiService` variant, a non-fatal rate-limit error within budget
waits `max(delay * 1.5, 15000)` before the next call. -/
theorem retryAi_rate_head {α : Type} (op : Nat → Except JStr α) (k m : Nat)
    (d : ℚ) (e : JStr) (hop : op k = .error e) (hf : isFatalErr e = false)
    (hrl : isRateLimitErr e = true) :
    (retryAi op k (m + 1) d).delays.head? = some (max (d * (3 / 2)) 15000) := by
  rw [retryAi, hop]
  simp [hf, hrl]

/-- In the `AiService` variant, a non-fatal, non-rate-limit error within
budget doubles the delay before the next call. -/
theorem retryAi_other_head {α : Type} (op : Nat → Except JStr α) (k m : Nat)
    (d : ℚ) (e : JStr) (hop : op k = .error e) (hf : isFatalErr e = false)
    (hrl : isRateLimitErr e = false) :
    (retryAi op k (m + 1) d).delays.head? = some (d * 2) := by
  rw [retryAi, hop]
  simp [hf, hrl]

/-- In the `AiService` variant, when every call fails with the same
non-fatal error, the budget is spent (`n + 1` calls for budget `n`) and
the original error propagates. -/
theorem retryAi_exhaust {α : Type} (op : Nat → Except JStr α) (e : JStr)
    (h : ∀ j, op j = .error e) (hf : isFatalErr e = false) :
    ∀ (n k : Nat) (d : ℚ),
      (retryAi op k n d).result = .error e ∧ (retryAi op k n d).calls = n + 1 := by
  intro n
  induction n with
  | zero => intro k d; rw [retryAi, h k]; exact ⟨rfl, rfl⟩
  | succ m ih =>
    intro k d
    rw [retryAi, h k]
    simp only [hf, Bool.false_eq_true, if_false]
    refine ⟨(ih (k + 1) _).1, ?_⟩
    simp [(ih (k + 1) _).2]

/-- In the `GeminiService` variant, a rate-limit error within budget waits
`max(delay * 1.5, 15000)` before the next call. -/
theorem retryGemini_rate_head {α : Type} (op : Nat → Except JStr α)
    (k m : Nat) (d : ℚ) (e : JStr) (hop : op k = .error e)
    (hrl : isRateLimitErr e = true) :
    (retryGemini op k (m + 1) d).delays.head? = some (max (d * (3 / 2)) 15000) := by
  rw [retryGemini, hop]
  simp [hrl]

/-- In the `GeminiService` variant, any non-rate-limit error within budget
— fatal HTTP statuses included — doubles the delay before the next call. -/
theorem retryGemini_other_head {α : Type} (op : Nat → Except JStr α)
    (k m : Nat) (d : ℚ) (e : JStr) (hop : op k = .error e)
    (hrl : isRateLimitErr e = false) :
    (retryGemini op k (m + 1) d).delays.head? = some (d * 2) := by
  rw [retryGemini, hop]
  simp [hrl]

/-- In the `GeminiService` variant, when every call fails with the same
error, the budget is spent and the original error propagates. -/
theorem retryGemini_exhaust {α : Type} (op : Nat → Except JStr α) (e : JStr)
    (h : ∀ j, op j = .error e) :
    ∀ (n k : Nat) (d : ℚ),
      (retryGemini op k n d).result = .error e
        ∧ (retryGemini op k n d).calls = n + 1 := by
  intro n
  induction n with
  | zero => intro k d; rw [retryGemini, h k]; exact ⟨rfl, rfl⟩
  | succ m ih =>
    intro k d
    rw [retryGemini, h k]
    refine ⟨(ih (k + 1) _).1, ?_⟩
    simp [(ih (k + 1) _).2]

/-- A sample authentication error string (contains `401`). -/
def err401 : JStr := "Error: got status 401 Unauthorized".data

/-- A sample rate-limit error string (contains `429` and
`RESOURCE_EXHAUSTED`, none of the fatal status codes). -/
def err429 : JStr := "Error: 429 RESOURCE_EXHAUSTED".data

/-- A sample transient error string (none of the classified substrings). -/
def err500 : JStr := "Error: 500 Internal Server Error".data

/-- C4 counterexample: the claim says an error containing `401` is
rethrown immediately with zero retries, but `GeminiService.retry` (cited
by the claim) has no fatal class: with its default budget of 5 retries it
invokes the failing operation 6 times on a persistent 401 error. -/
theorem retry_fatal_class_counterexample :
    (retryGeminiDefault (fun _ => (Except.error err401 : Except JStr JStr))).calls = 6
      ∧ ¬ (retryGeminiDefault
            (fun _ => (Except.error err401 : Except JStr JStr))).calls = 1 := by
  constructor
  · decide
  · decide

/-- C4 (amended): the `AiService` variant rethrows an error containing
401/403/400 immediately with zero retries; the `GeminiService` variant has
no fatal class and instead doubles the delay for such errors.  In both
variants a (non-fatal) error containing 429 or `RESOURCE_EXHAUSTED` makes
the next backoff delay `max(currentDelay * 1.5, 15000)` — hence at least
15000 — any other error doubles the current delay, and when the retry
budget is exhausted the original error propagates after `budget + 1`
calls. -/
theorem retry_classification :
    (∀ (op : Nat → Except JStr JStr) (k n : Nat) (d : ℚ) (e : JStr),
      op k = .error e → isFatalErr e = true →
      retryAi op k n d = ⟨.error e, 1, []⟩)
  ∧ (∀ (op : Nat → Except JStr JStr) (k m : Nat) (d : ℚ) (e : JStr),
      op k = .error e → isFatalErr e = false → isRateLimitErr e = true →
      (retryAi op k (m + 1) d).delays.head? = some (max (d * (3 / 2)) 15000)
        ∧ (15000 : ℚ) ≤ max (d * (3 / 2)) 15000)
  ∧ (∀ (op : Nat → Except JStr JStr) (k m : Nat) (d : ℚ) (e : JStr),
      op k = .error e → isFatalErr e = false → isRateLimitErr e = false →
      (retryAi op k (m + 1) d).delays.head? = some (d * 2))
  ∧ (∀ (op : Nat → Except JStr JStr) (e : JStr),
      (∀ j, op j = .error e) → isFatalErr e = false →
      ∀ (n k : Nat) (d : ℚ),
        (retryAi op k n d).result = .error e
          ∧ (retryAi op k n d).calls = n + 1)
  ∧ (∀ (op : Nat → Except JStr JStr) (k m : Nat) (d : ℚ) (e : JStr),
      op k = .error e → isRateLimitErr e = true →
      (retryGemini op k (m + 1) d).delays.head? = some (max (d * (3 / 2)) 15000)
        ∧ (15000 : ℚ) ≤ max (d * (3 / 2)) 15000)
  ∧ (∀ (op : Nat → Except JStr JStr) (k m : Nat) (d : ℚ) (e : JStr),
      op k = .error e → isRateLimitErr e = false →
      (retryGemini op k (m + 1) d).delays.head? = some (d * 2))
  ∧ (∀ (op : Nat → Except JStr JStr) (e : JStr),
      (∀ j, op j = .error e) →
      ∀ (n k : Nat) (d : ℚ),
        (retryGemini op k n d).result = .error e
          ∧ (retryGemini op k n d).calls = n + 1) := by
  refine ⟨?_, ?_, ?_, ?_, ?_, ?_, ?_⟩
  · intro op k n d e hop hf; exact retryAi_fatal op k n d e hop hf
  · intro op k m d e hop hf hrl
    exact ⟨retryAi_rate_head op k m d e hop hf hrl, le_max_right _ _⟩
  · intro op k m d e hop hf hrl; exact retryAi_other_head op k m d e hop hf hrl
  · intro op e h hf; exact retryAi_exhaust op e h hf
  · intro op k m d e hop hrl
    exact ⟨retryGemini_rate_head op k m d e hop hrl, le_max_right _ _⟩
  · intro op k m d e hop hrl; exact retryGemini_other_head op k m d e hop hrl
  · intro op e h; exact retryGemini_exhaust op e h

/-- Witness for C4 (amended) at concrete error strings and the default
budgets: a persistent 401 aborts `AiService.retry` after one call, a
persistent 429 makes the first backoff `max(2000 * 1.5, 15000) ≥ 15000`,
a persistent transient error doubles the first delay to `2000 * 2`, and a
persistent non-fatal error exhausts the `AiService` budget of 3 after 4
calls. -/
theorem retry_classification_witness :
    retryAi (fun _ => (Except.error err401 : Except JStr JStr)) 0 3 2000
        = ⟨.error err401, 1, []⟩
      ∧ (retryAi (fun _ => (Except.error err429 : Except JStr JStr)) 0 3 2000).delays.head?
        = some (max ((2000 : ℚ) * (3 / 2)) 15000)
      ∧ (15000 : ℚ) ≤ max ((2000 : ℚ) * (3 / 2)) 15000
      ∧ (retryAi (fun _ => (Except.error err500 : Except JStr JStr)) 0 3 2000).delays.head?
        = some ((2000 : ℚ) * 2)
      ∧ (retryAi (fun _ => (Except.error err500 : Except JStr JStr)) 0 3 2000).calls = 4
      ∧ (retryGemini (fun _ => (Except.error err500 : Except JStr JStr)) 0 5 2000).calls = 6 := by
  obtain ⟨h1, h2, h3, h4, h5, h6, h7⟩ := retry_classification
  refine ⟨h1 _ 0 3 2000 err401 rfl (by decide), ?_, ?_, ?_, ?_, ?_⟩
  · exact (h2 _ 0 2 2000 err429 rfl (by decide) (by decide)).1
  · exact (h2 (fun _ => (Except.error err429 : Except JStr JStr)) 0 2 2000
      err429 rfl (by decide) (by decide)).2
  · exact h3 _ 0 2 2000 err500 rfl (by decide) (by decide)
  · exact (h4 (fun _ => (Except.error err500 : Except JStr JStr)) err500
      (fun _ => rfl) (by decide) 3 0 2000).2
  · exact (h7 (fun _ => (Except.error err500 : Except JStr JStr)) err500
      (fun _ => rfl) 5 0 2000).2

/-- C7: content classification is a pure function of
(title, source file name); on the probe inputs it yields
`classify "Copyright" "copyright.xhtml" = {isSkippable := true, isReference := false}`,
`classify "Bibliography" "notes.xhtml" = {isSkippable := false, isReference := true}`,
and `classify "Chapter One" "ch01.xhtml" = {isSkippable := false, isReference := false}`
(determinism and freedom from side effects hold by construction: the
classifier is a mathematical function of its two arguments). -/
theorem classify_probe_values :
    classify "Copyright".data "copyright.xhtml".data = (true, false)
  ∧ classify "Bibliography".data "notes.xhtml".data = (false, true)
  ∧ classify "Chapter One".data "ch01.xhtml".data = (false, false) := by
  refine ⟨?_, ?_, ?_⟩ <;> decide

/-! ## Packaging lemmas -/

/-- C6: exactly one document entry is generated per packaged unit; with
smart-skip enabled the packaged units are exactly the non-skippable ones
(so every packaged unit has `isSkippable = false`), and with smart-skip
disabled all units are packaged. -/
theorem packaging_selection (cfg : AppConfig) (render : JStr → JStr)
    (chs : List Chapter) :
    (pageEntries render (chaptersToPack cfg chs)).length
        = (chaptersToPack cfg chs).length
  ∧ (cfg.smartSkip = true →
      chaptersToPack cfg chs = chs.filter (fun c => !c.isSkippable)
        ∧ ∀ c ∈ chaptersToPack cfg chs, c.isSkippable = false)
  ∧ (cfg.smartSkip = false → chaptersToPack cfg chs = chs) := by
  refine ⟨?_, fun hs => ⟨?_, ?_⟩, fun hs => ?_⟩
  · simp [pageEntries]
  · simp [chaptersToPack, hs]
  · intro c hc
    simp only [chaptersToPack, hs, if_true] at hc
    have := List.of_mem_filter hc
    simpa using this
  · simp [chaptersToPack, hs]

/-- A configuration with smart-skip on and proofreading on. -/
def cfgSmart : AppConfig :=
  { targetLanguage := "Chinese (Simplified)".data
    systemInstruction := []
    proofreadInstruction := []
    enableProofreading := true
    useRecommendedPrompts := false
    smartSkip := true }

/-- A sample content unit: ordinary body chapter, no outputs yet. -/
def sampleChapter (i : Nat) (skip ref : Bool) : Chapter :=
  { id := "ch".data ++ (Nat.repr i).data
    fileName := "ch".data ++ (Nat.repr i).data ++ ".xhtml".data
    title := "Chapter ".data ++ (Nat.repr i).data
    content := []
    markdown := "0123456789 body text".data
    translatedMarkdown := none
    proofreadMarkdown := none
    isSkippable := skip
    isReference := ref }

/-- A configuration with smart-skip on and proofreading off. -/
def cfgNoProof : AppConfig :=
  { targetLanguage := "English".data
    systemInstruction := []
    proofreadInstruction := []
    enableProofreading := false
    useRecommendedPrompts := false
    smartSkip := true }

/-- A sample reference unit (a notes chapter) with no outputs yet. -/
def refChap : Chapter :=
  { id := "notes".data
    fileName := "notes.xhtml".data
    title := "Notes".data
    content := []
    markdown := "0123456789 reference text".data
    translatedMarkdown := none
    proofreadMarkdown := none
    isSkippable := false
    isReference := true }

/-- Five sample units, of which the second is skippable. -/
def fiveChapters : List Chapter :=
  [sampleChapter 1 false false, sampleChapter 2 true false,
   sampleChapter 3 false false, sampleChapter 4 false false,
   sampleChapter 5 false false]

/-- Witness for C6: on five units where unit 2 is skippable and smart-skip
is enabled, exactly 4 document entries are produced and every packaged
unit is non-skippable (so unit 2's document is excluded). -/
theorem packaging_selection_witness :
    (pageEntries id (chaptersToPack cfgSmart fiveChapters)).length = 4
  ∧ ∀ c ∈ chaptersToPack cfgSmart fiveChapters, c.isSkippable = false := by
  have h := packaging_selection cfgSmart id fiveChapters
  have h2 := h.2.1 rfl
  refine ⟨h.1.trans ?_, h2.2⟩
  rw [h2.1]
  decide

/-! ## Orchestrator lemmas -/

/-- The unit fields the orchestrator never writes: everything except
`translatedMarkdown` and `proofreadMarkdown`. -/
def frameOf (c : Chapter) : JStr × JStr × JStr × JStr × JStr × Bool × Bool :=
  (c.id, c.fileName, c.title, c.content, c.markdown, c.isSkippable,
   c.isReference)

/-- The contribution of a single chapter to `stepsDone`. -/
def chStep (cfg : AppConfig) (c : Chapter) : Nat :=
  if cfg.smartSkip && c.isSkippable then
    (if cfg.enableProofreading then 2 else 1)
  else
    (if truthy c.translatedMarkdown then 1 else 0)
      + (if truthy c.proofreadMarkdown then 1 else 0)

/-- A left fold whose step is addition-compatible can be shifted out of
its initial accumulator. -/
theorem foldl_shift {β : Type} (f : Nat → β → Nat)
    (hf : ∀ (a b : Nat) (x : β), f (a + b) x = a + f b x) :
    ∀ (l : List β) (a : Nat), l.foldl f a = a + l.foldl f 0 := by
  intro l
  induction l with
  | nil => intro a; simp
  | cons x xs ih =>
    intro a
    rw [List.foldl_cons, List.foldl_cons, ih (f a x),
        show f a x = a + f 0 x from by simpa using hf a 0 x,
        ih (f 0 x), Nat.add_assoc]

/-- `stepsDone` is the sum of the per-chapter contributions. -/
theorem stepsDone_eq_sum (cfg : AppConfig) (chs : List Chapter) :
    stepsDone cfg chs = (chs.map (chStep cfg)).sum := by
  have hf : ∀ (a b : Nat) (x : Chapter),
      (fun acc c =>
        if cfg.smartSkip && c.isSkippable then
          acc + (if cfg.enableProofreading then 2 else 1)
        else
          acc + (if truthy c.translatedMarkdown then 1 else 0)
              + (if truthy c.proofreadMarkdown then 1 else 0)) (a + b) x
      = a + (fun acc c =>
        if cfg.smartSkip && c.isSkippable then
          acc + (if cfg.enableProofreading then 2 else 1)
        else
          acc + (if truthy c.translatedMarkdown then 1 else 0)
              + (if truthy c.proofreadMarkdown then 1 else 0)) b x := by
    intro a b x
    by_cases h : cfg.smartSkip && x.isSkippable <;> simp [h] <;> omega
  induction chs with
  | nil => rfl
  | cons c l ih =>
    rw [List.map_cons, List.sum_cons, ← ih]
    unfold stepsDone
    rw [List.foldl_cons, foldl_shift _ hf]
    unfold chStep
    by_cases h : cfg.smartSkip && c.isSkippable <;> simp [h]

/-- `chStep` never decreases when a chapter update keeps the skippable
flag and only strengthens the truthiness of the two output fields. -/
theorem chStep_le (cfg : AppConfig) {c c' : Chapter}
    (hsk : c'.isSkippable = c.isSkippable)
    (ht : truthy c.translatedMarkdown = true →
          truthy c'.translatedMarkdown = true)
    (hp : truthy c.proofreadMarkdown = true →
          truthy c'.proofreadMarkdown = true) :
    chStep cfg c ≤ chStep cfg c' := by
  unfold chStep
  rw [hsk]
  split
  · exact Nat.le_refl _
  · have a1 : (if truthy c.translatedMarkdown then 1 else 0)
        ≤ (if truthy c'.translatedMarkdown then (1 : Nat) else 0) := by
      by_cases h : truthy c.translatedMarkdown = true
      · rw [if_pos h, if_pos (ht h)]
      · rw [if_neg h]; exact Nat.zero_le _
    have a2 : (if truthy c.proofreadMarkdown then 1 else 0)
        ≤ (if truthy c'.proofreadMarkdown then (1 : Nat) else 0) := by
      by_cases h : truthy c.proofreadMarkdown = true
      · rw [if_pos h, if_pos (hp h)]
      · rw [if_neg h]; exact Nat.zero_le _
    omega

/-- A non-short markdown text is nonempty, so wrapping it in `some` gives
a truthy field. -/
theorem truthy_some_of_not_short {md : JStr}
    (hm : shortMarkdown md = false) : truthy (some md) = true := by
  unfold shortMarkdown at hm
  unfold truthy
  simp only [Bool.or_eq_false_iff] at hm
  simp [hm.1]

/-- Reference preservation keeps the frame fields. -/
theorem applyReferenceKeep_frame (cfg : AppConfig) (c : Chapter) :
    frameOf (applyReferenceKeep cfg c) = frameOf c := by
  unfold applyReferenceKeep
  split <;> rfl

/-- Reference preservation never decreases the step count (the markdown
being stored is nonempty when the short-circuit check was passed). -/
theorem applyReferenceKeep_chStep (cfg : AppConfig) (c : Chapter)
    (hm : shortMarkdown c.markdown = false) :
    chStep cfg c ≤ chStep cfg (applyReferenceKeep cfg c) := by
  unfold applyReferenceKeep
  split
  · rename_i h
    refine chStep_le cfg rfl ?_ ?_
    · intro hc
      simp only [Bool.and_eq_true, Bool.not_eq_true'] at h
      rw [hc] at h
      exact absurd h.2 (by simp)
    · intro _
      exact truthy_some_of_not_short hm
  · exact Nat.le_refl _

/-- The translation pass keeps the frame fields. -/
theorem applyTranslate_frame (T : JStr → JStr) (c : Chapter) :
    frameOf (applyTranslate T c).2 = frameOf c := by
  unfold applyTranslate
  split <;> rfl

/-- The translation pass never decreases the step count. -/
theorem applyTranslate_chStep (cfg : AppConfig) (T : JStr → JStr)
    (c : Chapter) : chStep cfg c ≤ chStep cfg (applyTranslate T c).2 := by
  unfold applyTranslate
  split
  · exact Nat.le_refl _
  · rename_i h
    refine chStep_le cfg rfl ?_ ?_
    · intro hc; exact absurd hc h
    · intro hc; exact hc

/-- The proofreading pass keeps the frame fields. -/
theorem applyProofread_frame (cfg : AppConfig) (P : JStr → JStr)
    (done : List Chapter) (c : Chapter) (rest : List Chapter) :
    frameOf (applyProofread cfg P done c rest).2 = frameOf c := by
  unfold applyProofread
  split
  · split <;> rfl
  · rfl

/-- The proofreading pass never decreases the step count. -/
theorem applyProofread_chStep (cfg : AppConfig) (P : JStr → JStr)
    (done : List Chapter) (c : Chapter) (rest : List Chapter) :
    chStep cfg c ≤ chStep cfg (applyProofread cfg P done c rest).2 := by
  unfold applyProofread
  split
  · split
    · exact Nat.le_refl _
    · rename_i h
      refine chStep_le cfg rfl (fun hc => hc) ?_
      intro hc; exact absurd hc h
  · exact Nat.le_refl _

/-- Published progress is monotone in the step count, at fixed list
length. -/
theorem progressOf_mono (cfg : AppConfig) {l1 l2 : List Chapter}
    (hlen : l1.length = l2.length)
    (hsd : stepsDone cfg l1 ≤ stepsDone cfg l2) :
    progressOf cfg l1 ≤ progressOf cfg l2 := by
  unfold progressOf
  rw [hlen]
  refine mul_le_mul_of_nonneg_right ?_ (by norm_num)
  exact div_le_div_of_nonneg_right (by exact_mod_cast hsd) (by positivity)

/-- When proofreading is enabled, one chapter contributes at most 2 steps. -/
theorem chStep_le_two (cfg : AppConfig) (hp : cfg.enableProofreading = true)
    (c : Chapter) : chStep cfg c ≤ 2 := by
  unfold chStep
  split
  · simp [hp]
  · split <;> split <;> omega

/-- When proofreading is enabled, `stepsDone` never exceeds `totalSteps`. -/
theorem stepsDone_le_totalSteps (cfg : AppConfig)
    (hp : cfg.enableProofreading = true) (chs : List Chapter) :
    stepsDone cfg chs ≤ totalSteps cfg chs.length := by
  rw [stepsDone_eq_sum]
  unfold totalSteps
  rw [hp, if_pos rfl]
  induction chs with
  | nil => simp
  | cons c l ih =>
    rw [List.map_cons, List.sum_cons, List.length_cons]
    have := chStep_le_two cfg hp c
    omega

/-- Published progress is at most 100 when proofreading is enabled. -/
theorem progressOf_le_100 (cfg : AppConfig)
    (hp : cfg.enableProofreading = true) (chs : List Chapter) :
    progressOf cfg chs ≤ 100 := by
  unfold progressOf
  have h1 : (stepsDone cfg chs : ℚ) / (totalSteps cfg chs.length : ℚ) ≤ 1 := by
    refine div_le_one_of_le₀ ?_ (by positivity)
    exact_mod_cast stepsDone_le_totalSteps cfg hp chs
  calc (stepsDone cfg chs : ℚ) / (totalSteps cfg chs.length : ℚ) * 100
      ≤ 1 * 100 := mul_le_mul_of_nonneg_right h1 (by norm_num)
    _ = 100 := one_mul _

/-- `numExtCalls` distributes over event-trace append. -/
theorem numExtCalls_append (a b : List Event) :
    numExtCalls (a ++ b) = numExtCalls a + numExtCalls b := by
  unfold numExtCalls
  rw [List.filter_append, List.length_append]

/-- `publishedProgress` distributes over event-trace append. -/
theorem publishedProgress_append (a b : List Event) :
    publishedProgress (a ++ b)
      = publishedProgress a ++ publishedProgress b := by
  unfold publishedProgress
  rw [List.filterMap_append]

/-- `publishedProgress` on a trace beginning with a `setProgress`. -/
theorem publishedProgress_cons_progress (p : ℚ) (l : List Event) :
    publishedProgress (Event.setProgress p :: l) = p :: publishedProgress l := rfl

/-- `publishedProgress` on a trace beginning with a `setStatus`. -/
theorem publishedProgress_cons_status (st : AppStatus) (l : List Event) :
    publishedProgress (Event.setStatus st :: l) = publishedProgress l := rfl

/-- Case analysis of one loop iteration: either the chapter is skipped
outright (no events, unchanged chapter) or it is processed, publishing one
or two progress values — each computed over the live array after the
corresponding update — with the step count never decreasing from the
original chapter through each published snapshot to the final chapter,
and the frame fields untouched. -/
theorem processChapter_cases (cfg : AppConfig) (T P : JStr → JStr)
    (done : List Chapter) (c : Chapter) (rest : List Chapter) :
    processChapter cfg T P done c rest = ([], c)
  ∨ (∃ c2 : Chapter,
      chStep cfg c ≤ chStep cfg c2
      ∧ frameOf c2 = frameOf c
      ∧ (processChapter cfg T P done c rest).2 = c2
      ∧ publishedProgress (processChapter cfg T P done c rest).1
          = [progressOf cfg (done ++ c2 :: rest)])
  ∨ (∃ c2 c3 : Chapter,
      chStep cfg c ≤ chStep cfg c2
      ∧ chStep cfg c2 ≤ chStep cfg c3
      ∧ frameOf c2 = frameOf c
      ∧ frameOf c3 = frameOf c
      ∧ (processChapter cfg T P done c rest).2 = c3
      ∧ publishedProgress (processChapter cfg T P done c rest).1
          = [progressOf cfg (done ++ c2 :: rest),
             progressOf cfg (done ++ c3 :: rest)]) := by
  by_cases hshort : shortMarkdown c.markdown
  · left
    unfold processChapter
    rw [if_pos hshort]
  by_cases hskip : cfg.smartSkip && c.isSkippable
  · left
    unfold processChapter
    rw [if_neg hshort, if_pos hskip]
  have heq : processChapter cfg T P done c rest
      = ((applyTranslate T (applyReferenceKeep cfg c)).1
          ++ Event.setProgress (progressOf cfg
              (done ++ (applyTranslate T (applyReferenceKeep cfg c)).2 :: rest))
            :: (applyProofread cfg P done
                (applyTranslate T (applyReferenceKeep cfg c)).2 rest).1,
         (applyProofread cfg P done
            (applyTranslate T (applyReferenceKeep cfg c)).2 rest).2) := by
    unfold processChapter
    rw [if_neg hshort, if_neg hskip]
  set c1 := applyReferenceKeep cfg c with hc1
  set c2 := (applyTranslate T c1).2 with hc2
  have hm : shortMarkdown c.markdown = false := by simpa using hshort
  have hstep1 : chStep cfg c ≤ chStep cfg c2 :=
    le_trans (applyReferenceKeep_chStep cfg c hm)
      (applyTranslate_chStep cfg T c1)
  have hframe2 : frameOf c2 = frameOf c := by
    rw [hc2, applyTranslate_frame, hc1, applyReferenceKeep_frame]
  have htrpub : publishedProgress (applyTranslate T c1).1 = [] := by
    unfold applyTranslate
    split <;> rfl
  by_cases hen : cfg.enableProofreading = true
  · by_cases hpf : truthy c2.proofreadMarkdown = true
    · -- proofreading skipped: one publish
      right; left
      have hid : applyProofread cfg P done c2 rest = ([], c2) := by
        unfold applyProofread
        rw [if_pos hen, if_pos hpf]
      refine ⟨c2, hstep1, hframe2, ?_, ?_⟩
      · rw [heq]
        show (applyProofread cfg P done c2 rest).2 = c2
        rw [hid]
      · rw [heq]
        show publishedProgress ((applyTranslate T c1).1
          ++ Event.setProgress (progressOf cfg (done ++ c2 :: rest))
            :: (applyProofread cfg P done c2 rest).1) = _
        rw [hid, publishedProgress_append, htrpub,
            publishedProgress_cons_progress]
        rfl
    · -- proofreading executed: two publishes
      right; right
      set cc3 : Chapter := { c2 with
        proofreadMarkdown := some (P (c2.translatedMarkdown.getD [])) } with hcc3
      have hpr : applyProofread cfg P done c2 rest
          = ([Event.setStatus .PROOFREADING, Event.extCall .proofread,
              Event.setProgress (progressOf cfg (done ++ cc3 :: rest))],
             cc3) := by
        unfold applyProofread
        rw [if_pos hen, if_neg hpf]
      refine ⟨c2, cc3, hstep1, ?_, hframe2, ?_, ?_, ?_⟩
      · rw [hcc3]
        exact chStep_le cfg rfl (fun hc => hc) (fun hc => absurd hc hpf)
      · have hfr : frameOf cc3 = frameOf c2 := by rw [hcc3]; rfl
        exact hfr.trans hframe2
      · rw [heq]
        show (applyProofread cfg P done c2 rest).2 = cc3
        rw [hpr]
      · rw [heq]
        show publishedProgress ((applyTranslate T c1).1
          ++ Event.setProgress (progressOf cfg (done ++ c2 :: rest))
            :: (applyProofread cfg P done c2 rest).1) = _
        rw [hpr, publishedProgress_append, htrpub,
            publishedProgress_cons_progress]
        rfl
  · -- proofreading disabled: one publish
    right; left
    have hid : applyProofread cfg P done c2 rest = ([], c2) := by
      unfold applyProofread
      rw [if_neg hen]
    refine ⟨c2, hstep1, hframe2, ?_, ?_⟩
    · rw [heq]
      show (applyProofread cfg P done c2 rest).2 = c2
      rw [hid]
    · rw [heq]
      show publishedProgress ((applyTranslate T c1).1
        ++ Event.setProgress (progressOf cfg (done ++ c2 :: rest))
          :: (applyProofread cfg P done c2 rest).1) = _
      rw [hid, publishedProgress_append, htrpub,
          publishedProgress_cons_progress]
      rfl

/-- `runLoop` on an empty worklist. -/
theorem runLoop_nil (cfg : AppConfig) (T P : JStr → JStr)
    (done : List Chapter) : runLoop cfg T P done [] = ([], []) := rfl

/-- `runLoop` on a cons: process the head, then the tail with the
processed head appended to the done prefix. -/
theorem runLoop_cons (cfg : AppConfig) (T P : JStr → JStr)
    (done : List Chapter) (c : Chapter) (rest : List Chapter) :
    runLoop cfg T P done (c :: rest)
      = ((processChapter cfg T P done c rest).1
          ++ (runLoop cfg T P
              (done ++ [(processChapter cfg T P done c rest).2]) rest).1,
         (processChapter cfg T P done c rest).2
          :: (runLoop cfg T P
              (done ++ [(processChapter cfg T P done c rest).2]) rest).2) := by
  rw [runLoop]

/-- Replacing the focused chapter by one with a larger step contribution
never decreases `stepsDone` over the live array. -/
theorem stepsDone_mid (cfg : AppConfig) (done rest : List Chapter)
    {a b : Chapter} (h : chStep cfg a ≤ chStep cfg b) :
    stepsDone cfg (done ++ a :: rest) ≤ stepsDone cfg (done ++ b :: rest) := by
  rw [stepsDone_eq_sum, stepsDone_eq_sum]
  simp only [List.map_append, List.map_cons, List.sum_append, List.sum_cons]
  omega

/-- Replacing the focused chapter by one with a larger step contribution
never decreases published progress over the live array. -/
theorem progressOf_mid (cfg : AppConfig) (done rest : List Chapter)
    {a b : Chapter} (h : chStep cfg a ≤ chStep cfg b) :
    progressOf cfg (done ++ a :: rest) ≤ progressOf cfg (done ++ b :: rest) :=
  progressOf_mono cfg (by simp) (stepsDone_mid cfg done rest h)

/-- The progress values published by the chapter loop form a
non-decreasing chain, starting no lower than the progress of the incoming
live array. -/
theorem runLoop_chain (cfg : AppConfig) (T P : JStr → JStr) :
    ∀ (rest done : List Chapter),
      List.Chain' (· ≤ ·)
        (progressOf cfg (done ++ rest)
          :: publishedProgress (runLoop cfg T P done rest).1) := by
  intro rest
  induction rest with
  | nil =>
    intro done
    rw [runLoop_nil]
    exact List.chain'_singleton _
  | cons c rest ih =>
    intro done
    rw [runLoop_cons]
    show List.Chain' (· ≤ ·) (progressOf cfg (done ++ c :: rest)
      :: publishedProgress ((processChapter cfg T P done c rest).1 ++ _))
    rw [publishedProgress_append]
    rcases processChapter_cases cfg T P done c rest with
      hcase | ⟨c2, h1, _, h3, h4⟩ | ⟨c2, c3, h1, h1b, _, _, h3, h4⟩
    · rw [hcase]
      show List.Chain' (· ≤ ·) (progressOf cfg (done ++ c :: rest)
        :: publishedProgress (runLoop cfg T P (done ++ [c]) rest).1)
      have := ih (done ++ [c])
      simpa using this
    · rw [h4, h3]
      show List.Chain' (· ≤ ·) (progressOf cfg (done ++ c :: rest)
        :: progressOf cfg (done ++ c2 :: rest)
        :: publishedProgress (runLoop cfg T P (done ++ [c2]) rest).1)
      refine List.chain'_cons.mpr ⟨progressOf_mid cfg done rest h1, ?_⟩
      have := ih (done ++ [c2])
      simpa using this
    · rw [h4, h3]
      show List.Chain' (· ≤ ·) (progressOf cfg (done ++ c :: rest)
        :: progressOf cfg (done ++ c2 :: rest)
        :: progressOf cfg (done ++ c3 :: rest)
        :: publishedProgress (runLoop cfg T P (done ++ [c3]) rest).1)
      refine List.chain'_cons.mpr ⟨progressOf_mid cfg done rest h1, ?_⟩
      refine List.chain'_cons.mpr ⟨progressOf_mid cfg done rest h1b, ?_⟩
      have := ih (done ++ [c3])
      simpa using this

/-- With proofreading enabled, every progress value published by the
chapter loop is at most 100. -/
theorem runLoop_pubs_le_100 (cfg : AppConfig) (T P : JStr → JStr)
    (hp : cfg.enableProofreading = true) :
    ∀ (rest done : List Chapter) (q : ℚ),
      q ∈ publishedProgress (runLoop cfg T P done rest).1 → q ≤ 100 := by
  intro rest
  induction rest with
  | nil =>
    intro done q hq
    rw [runLoop_nil] at hq
    exact absurd hq (List.not_mem_nil q)
  | cons c rest ih =>
    intro done q hq
    rw [runLoop_cons] at hq
    rw [publishedProgress_append] at hq
    rcases List.mem_append.mp hq with hmem | hmem
    · rcases processChapter_cases cfg T P done c rest with
        hcase | ⟨c2, _, _, _, h4⟩ | ⟨c2, c3, _, _, _, _, _, h4⟩
      · rw [hcase] at hmem
        exact absurd hmem (List.not_mem_nil q)
      · rw [h4] at hmem
        rw [List.mem_singleton.mp hmem]
        exact progressOf_le_100 cfg hp _
      · rw [h4] at hmem
        rcases List.mem_cons.mp hmem with hmem | hmem
        · rw [hmem]; exact progressOf_le_100 cfg hp _
        · rw [List.mem_singleton.mp hmem]
          exact progressOf_le_100 cfg hp _
    · exact ih _ q hmem

/-- The loop body on a smart-skipped reference unit with no translated
text: both outputs are set to the original markdown, one progress value is
published, and no external call or status change is emitted. -/
theorem processChapter_reference (cfg : AppConfig) (T P : JStr → JStr)
    (done : List Chapter) (c : Chapter) (rest : List Chapter)
    (hs : cfg.smartSkip = true) (hr : c.isReference = true)
    (hk : c.isSkippable = false) (hm : shortMarkdown c.markdown = false)
    (ht : truthy c.translatedMarkdown = false) :
    processChapter cfg T P done c rest
      = ([Event.setProgress (progressOf cfg (done ++ { c with
            translatedMarkdown := some c.markdown,
            proofreadMarkdown := some c.markdown } :: rest))],
         { c with
           translatedMarkdown := some c.markdown,
           proofreadMarkdown := some c.markdown }) := by
  have hshort : ¬(shortMarkdown c.markdown = true) := by simp [hm]
  have hskip : ¬((cfg.smartSkip && c.isSkippable) = true) := by simp [hk]
  have hc1 : applyReferenceKeep cfg c
      = { c with
          translatedMarkdown := some c.markdown,
          proofreadMarkdown := some c.markdown } := by
    unfold applyReferenceKeep
    rw [if_pos (by simp [hs, hr, ht])]
  set cK : Chapter := { c with
    translatedMarkdown := some c.markdown,
    proofreadMarkdown := some c.markdown } with hcK
  have htrK : truthy cK.translatedMarkdown = true := by
    rw [hcK]; exact truthy_some_of_not_short hm
  have htr : applyTranslate T cK = ([], cK) := by
    unfold applyTranslate; rw [if_pos htrK]
  have hpfK : truthy cK.proofreadMarkdown = true := by
    rw [hcK]; exact truthy_some_of_not_short hm
  have hpr : applyProofread cfg P done cK rest = ([], cK) := by
    unfold applyProofread
    by_cases hen : cfg.enableProofreading = true
    · rw [if_pos hen, if_pos hpfK]
    · rw [if_neg hen]
  unfold processChapter
  rw [if_neg hshort, if_neg hskip]
  simp only [hc1, htr, hpr]
  rfl

/-- Somewhere in the processed output, the chapter at the position of a
distinguished input chapter is its one-step processed version (for some
done prefix). -/
theorem runLoop_get_mid (cfg : AppConfig) (T P : JStr → JStr) :
    ∀ (pre done : List Chapter) (c : Chapter) (post : List Chapter),
      ∃ d, ((runLoop cfg T P done (pre ++ c :: post)).2)[pre.length]?
        = some (processChapter cfg T P d c post).2 := by
  intro pre
  induction pre with
  | nil =>
    intro done c post
    refine ⟨done, ?_⟩
    rw [List.nil_append, runLoop_cons]
    simp
  | cons p pre ih =>
    intro done c post
    rw [List.cons_append, runLoop_cons]
    obtain ⟨d, hd⟩ :=
      ih (done ++ [(processChapter cfg T P done p (pre ++ c :: post)).2]) c post
    exact ⟨d, by rw [List.length_cons]; simpa using hd⟩

/-- The loop body never modifies the frame fields of a chapter. -/
theorem processChapter_frame (cfg : AppConfig) (T P : JStr → JStr)
    (done : List Chapter) (c : Chapter) (rest : List Chapter) :
    frameOf (processChapter cfg T P done c rest).2 = frameOf c := by
  rcases processChapter_cases cfg T P done c rest with
    h | ⟨c2, _, hf, h3, _⟩ | ⟨c2, c3, _, _, _, hf3, h3, _⟩
  · rw [h]
  · rw [h3, hf]
  · rw [h3, hf3]

/-- The loop returns as many chapters as it was given. -/
theorem runLoop_length (cfg : AppConfig) (T P : JStr → JStr) :
    ∀ (rest done : List Chapter),
      (runLoop cfg T P done rest).2.length = rest.length := by
  intro rest
  induction rest with
  | nil => intro done; rw [runLoop_nil]
  | cons c rest ih =>
    intro done
    rw [runLoop_cons]
    simp [ih]

/-- Positionally, the loop preserves every frame field of every chapter. -/
theorem runLoop_frame (cfg : AppConfig) (T P : JStr → JStr) :
    ∀ (rest done : List Chapter) (i : Nat),
      (((runLoop cfg T P done rest).2)[i]?).map frameOf
        = (rest[i]?).map frameOf := by
  intro rest
  induction rest with
  | nil => intro done i; rw [runLoop_nil]
  | cons c rest ih =>
    intro done i
    rw [runLoop_cons]
    cases i with
    | zero => simp [processChapter_frame]
    | succ n => simpa using ih _ n

/-- C10: a run of the workflow never modifies a unit's id, file name,
title, content, markdown, isSkippable or isReference fields, and never
removes or reorders units: the final collection has the same length and,
position by position, the same frame fields as the input collection (the
orchestrator writes only `translatedMarkdown` and `proofreadMarkdown`). -/
theorem orchestrator_frame_preservation (cfg : AppConfig)
    (T P : JStr → JStr) (chs : List Chapter) :
    (startProcessingModel cfg T P chs).2.1.length = chs.length
  ∧ ∀ i : Nat,
      (((startProcessingModel cfg T P chs).2.1)[i]?).map frameOf
        = (chs[i]?).map frameOf := by
  exact ⟨runLoop_length cfg T P chs [], fun i => runLoop_frame cfg T P chs [] i⟩

/-- C5: a unit with `isReference` true (not skippable, with real content,
and no translated text yet), under smart-skip, ends the run with
translated text and proofread text both equal verbatim to its original
text, and its processing step emits zero external-service calls. -/
theorem reference_preservation (cfg : AppConfig) (T P : JStr → JStr)
    (pre post : List Chapter) (c : Chapter)
    (hs : cfg.smartSkip = true) (hr : c.isReference = true)
    (hk : c.isSkippable = false) (hm : shortMarkdown c.markdown = false)
    (ht : truthy c.translatedMarkdown = false) :
    ((startProcessingModel cfg T P (pre ++ c :: post)).2.1)[pre.length]?
      = some { c with
               translatedMarkdown := some c.markdown,
               proofreadMarkdown := some c.markdown }
  ∧ ∀ (done rest : List Chapter),
      numExtCalls (processChapter cfg T P done c rest).1 = 0 := by
  constructor
  · show ((runLoop cfg T P [] (pre ++ c :: post)).2)[pre.length]? = _
    obtain ⟨d, hd⟩ := runLoop_get_mid cfg T P pre [] c post
    rw [hd, processChapter_reference cfg T P d c post hs hr hk hm ht]
  · intro done rest
    rw [processChapter_reference cfg T P done c rest hs hr hk hm ht]
    rfl

/-- Witness for C5: a two-unit book whose second unit is a reference
chapter; after the run its translated and proofread texts are its original
markdown, verbatim. -/
theorem reference_preservation_witness :
    ((startProcessingModel cfgSmart (fun s => s) (fun s => s)
        ([sampleChapter 1 false false] ++ refChap :: [])).2.1)[1]?
      = some { refChap with
               translatedMarkdown := some refChap.markdown,
               proofreadMarkdown := some refChap.markdown } := by
  have h := reference_preservation cfgSmart (fun s => s) (fun s => s)
    [sampleChapter 1 false false] [] refChap rfl rfl rfl (by decide) rfl
  exact h.1

/-- C8 counterexample: with smart-skip on, proofreading off and a single
reference unit, reference preservation stores a proofread text that the
step count still counts, so the run publishes the sequence `[200, 100]` —
the published progress exceeds 100 and then decreases when the final
`setProgress(100)` fires, refuting monotonicity (and the claim that 100 is
reached only at Completed: here 100 is published while the status is
Packaging, before Completed). -/
theorem progress_monotonicity_counterexample :
    publishedProgress (startProcessingModel cfgNoProof
        (fun s => s) (fun s => s) [refChap]).1 = [200, 100]
  ∧ ¬ List.Chain' (· ≤ ·) (publishedProgress (startProcessingModel cfgNoProof
        (fun s => s) (fun s => s) [refChap]).1) := by
  have hpc := processChapter_reference cfgNoProof (fun s => s) (fun s => s)
    [] refChap [] rfl rfl rfl (by decide) rfl
  set cK : Chapter := { refChap with
    translatedMarkdown := some refChap.markdown,
    proofreadMarkdown := some refChap.markdown } with hcK
  have hev : (startProcessingModel cfgNoProof
      (fun s => s) (fun s => s) [refChap]).1
      = (runLoop cfgNoProof (fun s => s) (fun s => s) [] [refChap]).1
        ++ [Event.setStatus .PACKAGING, Event.setProgress 100,
            Event.setStatus .COMPLETED] := rfl
  have hloop : (runLoop cfgNoProof (fun s => s) (fun s => s) [] [refChap]).1
      = [Event.setProgress (progressOf cfgNoProof ([] ++ cK :: []))] := by
    rw [runLoop_cons, hpc]
    simp [runLoop_nil]
  have hq : progressOf cfgNoProof ([] ++ cK :: []) = 200 := by
    have h1 : stepsDone cfgNoProof ([] ++ cK :: []) = 2 := by decide
    have h2 : ([] ++ cK :: [] : List Chapter).length = 1 := by decide
    unfold progressOf
    rw [h1, h2]
    norm_num [totalSteps, cfgNoProof]
  have hpub : publishedProgress (startProcessingModel cfgNoProof
      (fun s => s) (fun s => s) [refChap]).1 = [200, 100] := by
    rw [hev, hloop, publishedProgress_append, hq]
    rfl
  refine ⟨hpub, ?_⟩
  rw [hpub]
  intro hchain
  have := (List.chain'_cons.mp hchain).1
  norm_num at this

/-- C8 (amended): when proofreading is enabled, the published progress
sequence of a run is monotonically non-decreasing and its last value is
exactly 100 (set just before the transition to Completed; each loop-time
value is `stepsDone / totalSteps × 100` over the live unit list by
construction of the model).  Without the proofreading hypothesis
monotonicity fails — see the counterexample — because a unit can carry a
proofread text that the step count counts even though `totalSteps`
ignores it, pushing published progress above 100; and a value of 100 can
be published before Completed. -/
theorem progress_monotonicity (cfg : AppConfig) (T P : JStr → JStr)
    (chs : List Chapter) (hp : cfg.enableProofreading = true) :
    List.Chain' (· ≤ ·)
        (publishedProgress (startProcessingModel cfg T P chs).1)
  ∧ (publishedProgress (startProcessingModel cfg T P chs).1).getLast?
      = some 100 := by
  have hev : (startProcessingModel cfg T P chs).1
      = (runLoop cfg T P [] chs).1
        ++ [Event.setStatus .PACKAGING, Event.setProgress 100,
            Event.setStatus .COMPLETED] := rfl
  rw [hev, publishedProgress_append,
      show publishedProgress [Event.setStatus .PACKAGING,
        Event.setProgress 100, Event.setStatus .COMPLETED] = [100] from rfl]
  constructor
  · rw [List.chain'_append]
    refine ⟨(runLoop_chain cfg T P chs []).tail,
      List.chain'_singleton _, ?_⟩
    intro x hx y hy
    simp only [List.head?_cons, Option.mem_def, Option.some.injEq] at hy
    subst hy
    obtain ⟨hne, rfl⟩ := List.mem_getLast?_eq_getLast hx
    exact runLoop_pubs_le_100 cfg T P hp chs [] _ (List.getLast_mem hne)
  · simp

/-- Witness for C8 (amended): the run over the five sample units with the
default-style configuration publishes a non-decreasing progress sequence
ending at 100. -/
theorem progress_monotonicity_witness :
    List.Chain' (· ≤ ·)
        (publishedProgress (startProcessingModel cfgSmart
          (fun s => s) (fun s => s) fiveChapters).1)
  ∧ (publishedProgress (startProcessingModel cfgSmart
        (fun s => s) (fun s => s) fiveChapters).1).getLast? = some 100 :=
  progress_monotonicity cfgSmart (fun s => s) (fun s => s) fiveChapters rfl

/-- A unit whose enabled passes are all complete (truthy translated text,
and truthy proofread text when proofreading is enabled) triggers no
external call when the loop revisits it. -/
theorem processChapter_calls_complete (cfg : AppConfig) (T P : JStr → JStr)
    (done : List Chapter) (c : Chapter) (rest : List Chapter)
    (h1 : truthy c.translatedMarkdown = true)
    (h2 : cfg.enableProofreading = true → truthy c.proofreadMarkdown = true) :
    numExtCalls (processChapter cfg T P done c rest).1 = 0 := by
  by_cases hshort : shortMarkdown c.markdown = true
  · unfold processChapter
    rw [if_pos hshort]
    rfl
  by_cases hskip : (cfg.smartSkip && c.isSkippable) = true
  · unfold processChapter
    rw [if_neg hshort, if_pos hskip]
    rfl
  have hc1 : applyReferenceKeep cfg c = c := by
    unfold applyReferenceKeep
    rw [if_neg ?_]
    intro h
    simp only [Bool.and_eq_true] at h
    rw [h1] at h
    exact absurd h.2 (by simp)
  have htr : applyTranslate T c = ([], c) := by
    unfold applyTranslate
    rw [if_pos h1]
  have hpr : (applyProofread cfg P done c rest).1 = [] := by
    unfold applyProofread
    by_cases hen : cfg.enableProofreading = true
    · rw [if_pos hen, if_pos (h2 hen)]
    · rw [if_neg hen]
  unfold processChapter
  rw [if_neg hshort, if_neg hskip]
  simp only [hc1, htr, hpr]
  rfl

/-- A processable fresh unit (real content, no outputs yet, not subject to
smart-skip) triggers exactly one external call per enabled pass. -/
theorem processChapter_calls_fresh (cfg : AppConfig) (T P : JStr → JStr)
    (done : List Chapter) (c : Chapter) (rest : List Chapter)
    (hm : shortMarkdown c.markdown = false)
    (ht : truthy c.translatedMarkdown = false)
    (hpf : truthy c.proofreadMarkdown = false)
    (hss : cfg.smartSkip = true → c.isSkippable = false ∧ c.isReference = false) :
    numExtCalls (processChapter cfg T P done c rest).1
      = if cfg.enableProofreading then 2 else 1 := by
  have hshort : ¬(shortMarkdown c.markdown = true) := by simp [hm]
  have hskip : ¬((cfg.smartSkip && c.isSkippable) = true) := by
    intro h
    simp only [Bool.and_eq_true] at h
    exact absurd h.2 (by simp [(hss h.1).1])
  have hc1 : applyReferenceKeep cfg c = c := by
    unfold applyReferenceKeep
    rw [if_neg ?_]
    intro h
    simp only [Bool.and_eq_true] at h
    exact absurd h.1.2 (by simp [(hss h.1.1).2])
  have htr : applyTranslate T c
      = ([Event.setStatus .TRANSLATING, Event.extCall .translate],
         { c with translatedMarkdown := some (T c.markdown) }) := by
    unfold applyTranslate
    rw [if_neg (by simp [ht])]
  set cT : Chapter := { c with
    translatedMarkdown := some (T c.markdown) } with hcT
  have hpfT : truthy cT.proofreadMarkdown = false := by
    rw [hcT]; exact hpf
  by_cases hen : cfg.enableProofreading = true
  · have hpr : applyProofread cfg P done cT rest
        = ([Event.setStatus .PROOFREADING, Event.extCall .proofread,
            Event.setProgress (progressOf cfg (done ++ { cT with
              proofreadMarkdown := some (P (cT.translatedMarkdown.getD []))
            } :: rest))],
           { cT with
             proofreadMarkdown := some (P (cT.translatedMarkdown.getD [])) }) := by
      unfold applyProofread
      rw [if_pos hen, if_neg (by simp [hpfT])]
    unfold processChapter
    rw [if_neg hshort, if_neg hskip]
    simp only [hc1, htr, hpr]
    rw [if_pos hen]
    rfl
  · have hpr : applyProofread cfg P done cT rest = ([], cT) := by
      unfold applyProofread
      rw [if_neg hen]
    unfold processChapter
    rw [if_neg hshort, if_neg hskip]
    simp only [hc1, htr, hpr]
    rw [if_neg hen]
    rfl

/-- The loop over a worklist of processable fresh units makes exactly one
external call per unit per enabled pass. -/
theorem runLoop_calls_fresh (cfg : AppConfig) (T P : JStr → JStr) :
    ∀ (fresh done : List Chapter),
      (∀ c ∈ fresh, shortMarkdown c.markdown = false
        ∧ truthy c.translatedMarkdown = false
        ∧ truthy c.proofreadMarkdown = false
        ∧ (cfg.smartSkip = true → c.isSkippable = false ∧ c.isReference = false)) →
      numExtCalls (runLoop cfg T P done fresh).1
        = fresh.length * (if cfg.enableProofreading then 2 else 1) := by
  intro fresh
  induction fresh with
  | nil => intro done _; rw [runLoop_nil]; simp [numExtCalls]
  | cons c l ih =>
    intro done hf
    rw [runLoop_cons]
    show numExtCalls ((processChapter cfg T P done c l).1 ++ _) = _
    rw [numExtCalls_append]
    obtain ⟨h1, h2, h3, h4⟩ := hf c (List.mem_cons_self c l)
    rw [processChapter_calls_fresh cfg T P done c l h1 h2 h3 h4,
        ih _ (fun x hx => hf x (List.mem_cons_of_mem c hx))]
    rw [List.length_cons, Nat.succ_mul]
    omega

/-- The loop over a complete prefix followed by fresh units makes exactly
one external call per fresh unit per enabled pass — the complete prefix
contributes none. -/
theorem runLoop_calls_resume (cfg : AppConfig) (T P : JStr → JStr) :
    ∀ (comp fresh done : List Chapter),
      (∀ c ∈ comp, truthy c.translatedMarkdown = true
        ∧ (cfg.enableProofreading = true → truthy c.proofreadMarkdown = true)) →
      (∀ c ∈ fresh, shortMarkdown c.markdown = false
        ∧ truthy c.translatedMarkdown = false
        ∧ truthy c.proofreadMarkdown = false
        ∧ (cfg.smartSkip = true → c.isSkippable = false ∧ c.isReference = false)) →
      numExtCalls (runLoop cfg T P done (comp ++ fresh)).1
        = fresh.length * (if cfg.enableProofreading then 2 else 1) := by
  intro comp
  induction comp with
  | nil =>
    intro fresh done _ hf
    rw [List.nil_append]
    exact runLoop_calls_fresh cfg T P fresh done hf
  | cons c l ih =>
    intro fresh done hc hf
    rw [List.cons_append, runLoop_cons]
    show numExtCalls ((processChapter cfg T P done c (l ++ fresh)).1 ++ _) = _
    rw [numExtCalls_append]
    obtain ⟨h1, h2⟩ := hc c (List.mem_cons_self c l)
    rw [processChapter_calls_complete cfg T P done c (l ++ fresh) h1 h2,
        ih fresh _ (fun x hx => hc x (List.mem_cons_of_mem c hx)) hf]
    exact Nat.zero_add _

/-- C1: units whose enabled passes are complete are never re-submitted to
the external service (write-once resume safety); re-running the workflow
over a collection whose first K units are complete and whose remaining
N−K units are fresh and processable performs external calls for exactly
the remaining N−K units, times the number of enabled passes. -/
theorem workflow_resumability (cfg : AppConfig) (T P : JStr → JStr)
    (comp fresh : List Chapter)
    (hc : ∀ c ∈ comp, truthy c.translatedMarkdown = true
      ∧ (cfg.enableProofreading = true → truthy c.proofreadMarkdown = true))
    (hf : ∀ c ∈ fresh, shortMarkdown c.markdown = false
      ∧ truthy c.translatedMarkdown = false
      ∧ truthy c.proofreadMarkdown = false
      ∧ (cfg.smartSkip = true → c.isSkippable = false ∧ c.isReference = false)) :
    numExtCalls (startProcessingModel cfg T P (comp ++ fresh)).1
      = fresh.length * (if cfg.enableProofreading then 2 else 1) := by
  have hev : (startProcessingModel cfg T P (comp ++ fresh)).1
      = (runLoop cfg T P [] (comp ++ fresh)).1
        ++ [Event.setStatus .PACKAGING, Event.setProgress 100,
            Event.setStatus .COMPLETED] := rfl
  rw [hev, numExtCalls_append,
      runLoop_calls_resume cfg T P comp fresh [] hc hf]
  rfl

/-- A sample unit whose two passes are already complete. -/
def doneChapter : Chapter :=
  { sampleChapter 9 false false with
    translatedMarkdown := some "translated body".data
    proofreadMarkdown := some "proofread body".data }

/-- Witness for C1: one complete unit followed by one fresh unit, with
proofreading enabled: the re-run performs exactly 1 × 2 external calls. -/
theorem workflow_resumability_witness :
    numExtCalls (startProcessingModel cfgSmart (fun s => s) (fun s => s)
        ([doneChapter] ++ [sampleChapter 1 false false])).1 = 2 := by
  have h := workflow_resumability cfgSmart (fun s => s) (fun s => s)
    [doneChapter] [sampleChapter 1 false false] (by decide) (by decide)
  exact h.trans (by decide)

end EpubTranslator
